import Mathlib

/-!
Verification of the in-memory data cache of `src/contexts/DataCacheContext.jsx`:
a TTL-expiring, size-bounded, LRU-evicting key-value store with pattern
invalidation, plus the cached-fetch coordinator layered on top.

The JavaScript `Map` held in `cacheRef.current` is embedded as an association
list that mirrors `Map` semantics: `mapSet` updates an existing key in place
(keeping its insertion position) or appends a new binding at the end,
`mapDelete` removes the binding, and iteration order is list order.
`accessOrderRef.current` is a `List String`.  `Date.now()` is an explicit
`now : Nat` argument threaded through every operation; operations that the
source leaves the refs untouched in still return the (unchanged) store, so
that frame properties are stated, not assumed.
-/

namespace DataCache

/-- One binding lookup of a JS `Map` backed by an association list:
the value of the first (and, for a well-formed map, only) pair with this key. -/
def mapGet {β : Type} : List (String × β) → String → Option β
  | [], _ => none
  | kv :: rest, k => if kv.1 = k then some kv.2 else mapGet rest k

/-- JS `Map.set`: replace the value of an existing key in place, otherwise
append the new binding at the end (insertion order). -/
def mapSet {β : Type} : List (String × β) → String → β → List (String × β)
  | [], k, v => [(k, v)]
  | kv :: rest, k, v => if kv.1 = k then (k, v) :: rest else kv :: mapSet rest k v

/-- JS `Map.delete`: drop the binding for this key. -/
def mapDelete {β : Type} (m : List (String × β)) (k : String) : List (String × β) :=
  m.filter (fun kv => kv.1 != k)

/-- JS `Map.has`. -/
def mapHas {β : Type} (m : List (String × β)) (k : String) : Bool :=
  (mapGet m k).isSome

/-- The keys of the map, in insertion order (JS `Map.keys()`). -/
def mapKeys {β : Type} (m : List (String × β)) : List String :=
  m.map Prod.fst

/-- A cache entry as stored by `setCache`:
`{ data, expiresAt: Date.now() + ttl, createdAt: Date.now() }`. -/
structure Entry (α : Type) where
  data : α
  expiresAt : Nat
  createdAt : Nat
deriving DecidableEq, Repr

/-- The provider's mutable state: `cacheRef.current` (the entry map) and
`accessOrderRef.current` (the LRU ledger, most-recently-used at the tail). -/
structure Store (α : Type) where
  cache : List (String × Entry α)
  accessOrder : List String
deriving DecidableEq, Repr

/-- The recurring idiom `cacheRef.current.delete(key);
accessOrderRef.current = accessOrderRef.current.filter(k => k !== key)`:
remove a key from the entry map and from the ledger. -/
def deleteKey {α : Type} (s : Store α) (key : String) : Store α :=
  { cache := mapDelete s.cache key,
    accessOrder := s.accessOrder.filter (fun k => k != key) }

/-- `getCache(key)`: `null` if absent; lazy-expire (delete from map and ledger)
and return `null` if `Date.now() > expiresAt`; otherwise move the key to the
ledger tail and return the data. -/
def getCache {α : Type} (now : Nat) (s : Store α) (key : String) :
    Option α × Store α :=
  match mapGet s.cache key with
  | none => (none, s)
  | some entry =>
    if now > entry.expiresAt then
      (none, deleteKey s key)
    else
      (entry.data,
       { s with accessOrder := s.accessOrder.filter (fun k => k != key) ++ [key] })

/-- `hasCache(key)`: true iff the entry exists and `Date.now() <= expiresAt`.
The source reads the refs and never writes them, so the store comes back
unchanged by construction. -/
def hasCache {α : Type} (now : Nat) (s : Store α) (key : String) :
    Bool × Store α :=
  (match mapGet s.cache key with
   | none => false
   | some entry => decide (now ≤ entry.expiresAt), s)

/-- `isStale(key)`: true iff the entry exists and `Date.now() > expiresAt`. -/
def isStale {α : Type} (now : Nat) (s : Store α) (key : String) :
    Bool × Store α :=
  (match mapGet s.cache key with
   | none => false
   | some entry => decide (now > entry.expiresAt), s)

/-- The eviction loop of `setCache`:
`while (cache.size >= maxEntries && accessOrder.length > 0) { delete(shift()) }`.
(Structured as recursion on the ledger, which the loop shortens on every pass;
when the ledger is empty the loop exits whatever the size is, so the two
formulations take the same steps.) -/
def evictLRU {α : Type} (maxEntries : Nat) :
    List (String × Entry α) → List String → List (String × Entry α) × List String
  | cache, [] => (cache, [])
  | cache, oldestKey :: rest =>
    if cache.length ≥ maxEntries then
      evictLRU maxEntries (mapDelete cache oldestKey) rest
    else (cache, oldestKey :: rest)

/-- `setCache(key, data, ttl)`: run the LRU eviction loop, store the entry with
`expiresAt = now + ttl`, `createdAt = now`, and move the key to the ledger tail. -/
def setCache {α : Type} (now maxEntries ttl : Nat) (s : Store α) (key : String)
    (data : α) : Store α :=
  let co := evictLRU maxEntries s.cache s.accessOrder
  { cache := mapSet co.1 key { data := data, expiresAt := now + ttl, createdAt := now },
    accessOrder := co.2.filter (fun k => k != key) ++ [key] }

/-- `clearCache()`: empty both structures, return the old size. -/
def clearCache {α : Type} (s : Store α) : Nat × Store α :=
  (s.cache.length, { cache := [], accessOrder := [] })

/-- `cleanupExpired()`: walk the entries in insertion order, deleting each stale
one from the map and the ledger, and count the deletions.  (Deleting the entry
currently being visited does not disturb JS `Map` iteration, so the walk is a
fold over the initial entry list.) -/
def cleanupExpired {α : Type} (now : Nat) (s : Store α) : Nat × Store α :=
  s.cache.foldl
    (fun acc kv =>
      if now > kv.2.expiresAt then (acc.1 + 1, deleteKey acc.2 kv.1) else acc)
    (0, s)

/-- The record returned by `getCacheStats`. -/
structure CacheStats where
  totalEntries : Nat
  expiredEntries : Nat
  activeEntries : Nat
  estimatedSizeBytes : Nat
  maxEntries : Nat
deriving DecidableEq, Repr

/-- `getCacheStats()`: a snapshot computed in one pass.  `sz` models
`JSON.stringify(entry.data).length`, which is external to the store. -/
def getCacheStats {α : Type} (now maxEntries : Nat) (sz : α → Nat) (s : Store α) :
    CacheStats × Store α :=
  let expiredCount := (s.cache.filter (fun kv => decide (now > kv.2.expiresAt))).length
  let totalSize := s.cache.foldl (fun acc kv => acc + sz kv.2.data) 0
  ({ totalEntries := s.cache.length,
     expiredEntries := expiredCount,
     activeEntries := s.cache.length - expiredCount,
     estimatedSizeBytes := totalSize,
     maxEntries := maxEntries }, s)

/-- Line terminators of JavaScript regular expressions: the characters that an
unflagged `.` does NOT match (LF, CR, LINE SEPARATOR, PARAGRAPH SEPARATOR). -/
def isLineTerm (c : Char) : Bool :=
  c.val == 10 || c.val == 13 || c.val == 8232 || c.val == 8233

/-- One atom of the regular expression `'^' + pattern.replace(/\*/g, '.*') + '$'`
built by `invalidateCache`: a literal character, an unflagged `.`, or the `.*`
that a `*` of the pattern was replaced by. -/
inductive RItem : Type where
  | lit : Char → RItem
  | dot : RItem
  | dotStar : RItem
deriving DecidableEq, Repr

/-- Translation of the wildcard pattern into the atoms of the regex the source
constructs: `*` becomes `.*`, `.` stays an unflagged regex `.`, and every other
character stands for itself.  (Characters that JavaScript regexes treat as
further metacharacters — `+ ? ( ) [ ] \x7b \x7d | ^ $ \\` — are outside this
embedding; the theorems about wildcard invalidation restrict patterns
accordingly.) -/
def toRItems : List Char → List RItem
  | [] => []
  | c :: cs =>
    (if c = '*' then RItem.dotStar
     else if c = '.' then RItem.dot
     else RItem.lit c) :: toRItems cs

/-- All decompositions of a string into a prefix and the matching suffix, used
to express what a `.*` (or a spec-side `*`) can consume. -/
def splits : List Char → List (List Char × List Char)
  | [] => [([], [])]
  | c :: cs => ([], c :: cs) :: (splits cs).map (fun pr => (c :: pr.1, pr.2))

/-- Matching of an atom sequence against a whole string, exactly the language of
the anchored regex: `lit c` matches `c`, `dot` matches any non-line-terminator
character, and `dotStar` consumes any (possibly empty) run of
non-line-terminator characters, existentially over all decompositions — which
is what backtracking `RegExp.test` decides. -/
def rMatch : List RItem → List Char → Bool
  | [], s => s.isEmpty
  | RItem.lit c :: ps, s =>
    match s with
    | [] => false
    | d :: ds => c == d && rMatch ps ds
  | RItem.dot :: ps, s =>
    match s with
    | [] => false
    | d :: ds => !(isLineTerm d) && rMatch ps ds
  | RItem.dotStar :: ps, s =>
    (splits s).any (fun pr => pr.1.all (fun c => !(isLineTerm c)) && rMatch ps pr.2)

/-- `new RegExp('^' + pattern.replace(/\*/g, '.*') + '$').test(key)`. -/
def regexTest (pattern key : String) : Bool :=
  rMatch (toRItems pattern.toList) key.toList

/-- Modelled from the spec: the glob interpretation the spec assigns to a
wildcard pattern — each `*` matches zero or more arbitrary characters, every
other character matches only itself, anchored at both ends.  This definition
follows the spec's words and is compared against `regexTest`, which follows
the source. -/
def globMatch : List Char → List Char → Bool
  | [], s => s.isEmpty
  | p :: ps, s =>
    if p = '*' then (splits s).any (fun pr => globMatch ps pr.2)
    else
      match s with
      | [] => false
      | d :: ds => p == d && globMatch ps ds

/-- `invalidateCache(pattern)`: with a `*` in the pattern, collect the keys the
constructed regex accepts, delete each from the map and the ledger, and return
how many; otherwise treat the pattern as an exact key, delete it, and return 1
if it was present, else 0. -/
def invalidateCache {α : Type} (s : Store α) (pattern : String) : Nat × Store α :=
  if pattern.toList.contains '*' then
    let keysToDelete := (mapKeys s.cache).filter (fun k => regexTest pattern k)
    (keysToDelete.length, keysToDelete.foldl deleteKey s)
  else
    let existed := mapHas s.cache pattern
    (if existed then 1 else 0, deleteKey s pattern)

/-- The coordinator state of `useCachedFetch`: the `data`, `isLoading`, `error`
and `isStale` pieces of React state. -/
structure FetchState (α ε : Type) where
  data : Option α
  isLoading : Bool
  error : Option ε
  isStale : Bool
deriving DecidableEq, Repr

/-- The producer path of a fetch cycle (the part of `fetchData` after the cache
check): `setIsLoading(true); setError(null)`, invoke the producer — which models
`fetch` + the `response.ok` check + `response.json()` and can fail — then on
success transform, write through to the cache and publish the data, on failure
capture the error; `finally setIsLoading(false)`. -/
def runProducer {α ε : Type} (now maxEntries ttl : Nat)
    (producer : String → Except ε α) (transform : α → α) (url : String)
    (st : FetchState α ε) (s : Store α) : FetchState α ε × Store α :=
  let st1 : FetchState α ε := { st with isLoading := true, error := none }
  match producer url with
  | Except.ok raw =>
    let transformed := transform raw
    ({ st1 with data := some transformed, isStale := false, isLoading := false },
     setCache now maxEntries ttl s url transformed)
  | Except.error e =>
    ({ st1 with error := some e, isLoading := false }, s)

/-- One fetch cycle of `useCachedFetch`'s `fetchData(skipCache)`.  `url = none`
models a falsy `url`.  On a cache hit the cached value is published together
with the store's staleness verdict, and — when `refetchOnStale` asks for it and
the entry is stale — the background `fetchData(true)` runs afterwards (its
effect is `runProducer`, since `fetchData(true)` skips the cache check). -/
def fetchData {α ε : Type} (now maxEntries ttl : Nat) (enabled : Bool)
    (url : Option String) (refetchOnStale : Bool)
    (producer : String → Except ε α) (transform : α → α) (skipCache : Bool)
    (st : FetchState α ε) (s : Store α) : FetchState α ε × Store α :=
  match url, enabled with
  | none, _ => ({ st with isLoading := false }, s)
  | some _, false => ({ st with isLoading := false }, s)
  | some u, true =>
    if skipCache then runProducer now maxEntries ttl producer transform u st s
    else
      match getCache now s u with
      | (some cached, s1) =>
        let st1 : FetchState α ε :=
          { st with data := some cached, isLoading := false,
                    isStale := (isStale now s1 u).1 }
        if refetchOnStale && (isStale now s1 u).1 then
          runProducer now maxEntries ttl producer transform u st1 s1
        else (st1, s1)
      | (none, s1) => runProducer now maxEntries ttl producer transform u st s1

/-- The consistency invariant of the store: the access-order ledger lists each
key exactly once, and its keys are, up to order, exactly the keys of the entry
map (so the map also binds each key once, as a JS `Map` does). -/
def Inv {α : Type} (s : Store α) : Prop :=
  s.accessOrder.Nodup ∧ List.Perm (mapKeys s.cache) s.accessOrder

instance {α : Type} (s : Store α) : Decidable (Inv s) := by
  unfold Inv; exact inferInstance

/-! ### Lemmas about the association-list map -/

theorem mapGet_mapSet_self {β : Type} (m : List (String × β)) (k : String) (v : β) :
    mapGet (mapSet m k v) k = some v := by
  induction m with
  | nil => simp [mapSet, mapGet]
  | cons kv rest ih =>
    by_cases h : kv.1 = k
    · simp [mapSet, h, mapGet]
    · simp [mapSet, h, mapGet, ih]

theorem mapGet_mapSet_ne {β : Type} (m : List (String × β)) (k k2 : String) (v : β)
    (h : k2 ≠ k) : mapGet (mapSet m k v) k2 = mapGet m k2 := by
  have h' : ¬ k = k2 := fun hcon => h hcon.symm
  induction m with
  | nil => simp [mapSet, mapGet, h']
  | cons kv rest ih =>
    by_cases hk : kv.1 = k
    · subst hk
      simp [mapSet, mapGet, h']
    · simp [mapSet, hk, mapGet, ih]

theorem mapDelete_cons {β : Type} (kv : String × β) (rest : List (String × β))
    (k : String) :
    mapDelete (kv :: rest) k
      = if kv.1 = k then mapDelete rest k else kv :: mapDelete rest k := by
  by_cases h : kv.1 = k
  · simp [mapDelete, List.filter_cons, h]
  · simp [mapDelete, List.filter_cons, bne_iff_ne.mpr h, h]

theorem mapGet_mapDelete {β : Type} (m : List (String × β)) (k k2 : String) :
    mapGet (mapDelete m k) k2 = if k2 = k then none else mapGet m k2 := by
  induction m with
  | nil => simp [mapDelete, mapGet]
  | cons kv rest ih =>
    rw [mapDelete_cons]
    by_cases hk : kv.1 = k
    · subst hk
      rw [if_pos rfl, ih]
      by_cases hk2 : k2 = kv.1
      · simp [hk2]
      · have h' : ¬ kv.1 = k2 := fun hcon => hk2 hcon.symm
        simp [hk2, mapGet, h']
    · rw [if_neg hk]
      by_cases hk2 : kv.1 = k2
      · subst hk2
        simp [mapGet, hk]
      · simp [mapGet, hk2, ih]

theorem mapKeys_mapDelete {β : Type} (m : List (String × β)) (k : String) :
    mapKeys (mapDelete m k) = (mapKeys m).filter (fun x => x != k) := by
  induction m with
  | nil => rfl
  | cons kv rest ih =>
    by_cases hk : kv.1 = k
    · subst hk
      simp [mapDelete, List.filter_cons, mapKeys] at ih ⊢
      exact ih
    · have hb : (kv.1 != k) = true := bne_iff_ne.mpr hk
      simp [mapDelete, List.filter_cons, hb, mapKeys] at ih ⊢
      exact ih

theorem mapGet_eq_none_iff {β : Type} (m : List (String × β)) (k : String) :
    mapGet m k = none ↔ k ∉ mapKeys m := by
  induction m with
  | nil => simp [mapGet, mapKeys]
  | cons kv rest ih =>
    by_cases hk : kv.1 = k
    · subst hk; simp [mapGet, mapKeys]
    · have h' : ¬ k = kv.1 := fun hcon => hk hcon.symm
      simp [mapGet, hk, mapKeys, ih, h']

theorem mapHas_iff_mem {β : Type} (m : List (String × β)) (k : String) :
    mapHas m k = true ↔ k ∈ mapKeys m := by
  rw [mapHas, Option.isSome_iff_ne_none, ne_eq, mapGet_eq_none_iff, not_not]

theorem mem_of_mapGet_eq_some {β : Type} {m : List (String × β)} {k : String}
    {v : β} (h : mapGet m k = some v) : k ∈ mapKeys m := by
  rw [← not_not (a := k ∈ mapKeys m), ← mapGet_eq_none_iff, h]
  simp

theorem mapKeys_mapSet {β : Type} (m : List (String × β)) (k : String) (v : β) :
    mapKeys (mapSet m k v)
      = if k ∈ mapKeys m then mapKeys m else mapKeys m ++ [k] := by
  induction m with
  | nil => simp [mapSet, mapKeys]
  | cons kv rest ih =>
    by_cases hk : kv.1 = k
    · subst hk; simp [mapSet, mapKeys]
    · have h' : ¬ k = kv.1 := fun hcon => hk hcon.symm
      simp only [mapSet, if_neg hk, mapKeys, List.map_cons] at ih ⊢
      rw [ih]
      by_cases hmem : k ∈ List.map Prod.fst rest
      · simp [hmem, List.mem_cons, h']
      · simp [hmem, List.mem_cons, h']

theorem length_mapDelete {β : Type} (m : List (String × β)) (k : String)
    (hnd : (mapKeys m).Nodup) (hk : k ∈ mapKeys m) :
    (mapDelete m k).length + 1 = m.length := by
  induction m with
  | nil => simp [mapKeys] at hk
  | cons kv rest ih =>
    simp only [mapKeys, List.map_cons, List.nodup_cons] at hnd
    by_cases hh : kv.1 = k
    · subst hh
      have hall : ∀ a ∈ rest, (a.1 != kv.1) = true := fun a ha =>
        bne_iff_ne.mpr (fun hcon => hnd.1 (hcon ▸ List.mem_map_of_mem Prod.fst ha))
      have hrest : mapDelete (kv :: rest) kv.1 = rest := by
        simp [mapDelete, List.filter_cons, List.filter_eq_self.mpr hall]
      simp [hrest]
    · have hb : (kv.1 != k) = true := bne_iff_ne.mpr hh
      have hk' : k ∈ mapKeys rest := by
        simp only [mapKeys, List.map_cons, List.mem_cons] at hk
        rcases hk with hcon | hmem
        · exact absurd hcon.symm hh
        · exact hmem
      have hlen := ih hnd.2 hk'
      simp only [mapDelete, List.filter_cons, hb, if_pos, List.length_cons] at hlen ⊢
      omega

/-! ### Lemmas about ledger filtering -/

theorem mem_filter_bne {l : List String} {k x : String} :
    x ∈ l.filter (fun y => y != k) ↔ x ∈ l ∧ x ≠ k := by
  simp [List.mem_filter]

theorem filter_bne_of_not_mem {l : List String} {k : String} (h : k ∉ l) :
    l.filter (fun y => y != k) = l :=
  List.filter_eq_self.mpr (fun a ha => by
    simp only [bne_iff_ne, ne_eq]
    intro hcon
    exact h (hcon ▸ ha))

theorem nodup_filter_bne_append {l : List String} (k : String) (hnd : l.Nodup) :
    (l.filter (fun y => y != k) ++ [k]).Nodup := by
  apply List.Nodup.append (hnd.filter _) (List.nodup_singleton k)
  intro a ha hb
  rw [List.mem_singleton] at hb
  exact (mem_filter_bne.mp ha).2 hb

theorem perm_filter_bne_append {l : List String} {k : String} (hnd : l.Nodup)
    (hk : k ∈ l) : List.Perm l (l.filter (fun y => y != k) ++ [k]) := by
  induction l with
  | nil => cases hk
  | cons a t ih =>
    rcases List.mem_cons.mp hk with h | h
    · subst h
      have hnotm : k ∉ t := (List.nodup_cons.mp hnd).1
      simp only [List.filter_cons, bne_self_eq_false, Bool.false_eq_true, if_false,
                 filter_bne_of_not_mem hnotm]
      exact (List.perm_append_singleton k t).symm
    · have hne : a ≠ k := by
        rintro rfl
        exact (List.nodup_cons.mp hnd).1 h
      rw [List.filter_cons, if_pos (bne_iff_ne.mpr hne), List.cons_append]
      exact List.Perm.cons a (ih (List.nodup_cons.mp hnd).2 h)

/-! ### Preservation of the consistency invariant -/

theorem Inv_deleteKey {α : Type} {s : Store α} (k : String) (h : Inv s) :
    Inv (deleteKey s k) := by
  refine ⟨h.1.filter _, ?_⟩
  rw [deleteKey, mapKeys_mapDelete]
  exact h.2.filter _

theorem Inv_touch {α : Type} {c : List (String × Entry α)} {o : List String}
    {k : String} (h : Inv { cache := c, accessOrder := o })
    (hk : k ∈ mapKeys c) :
    Inv { cache := c, accessOrder := o.filter (fun x => x != k) ++ [k] } := by
  refine ⟨nodup_filter_bne_append k h.1, ?_⟩
  have hko : k ∈ o := h.2.mem_iff.mp hk
  exact h.2.trans (perm_filter_bne_append h.1 hko)

theorem Inv_insert {α : Type} {c : List (String × Entry α)} {o : List String}
    (k : String) (e : Entry α) (h : Inv { cache := c, accessOrder := o }) :
    Inv { cache := mapSet c k e, accessOrder := o.filter (fun x => x != k) ++ [k] } := by
  refine ⟨nodup_filter_bne_append k h.1, ?_⟩
  show List.Perm (mapKeys (mapSet c k e)) _
  rw [mapKeys_mapSet]
  by_cases hk : k ∈ mapKeys c
  · rw [if_pos hk]
    exact h.2.trans (perm_filter_bne_append h.1 (h.2.mem_iff.mp hk))
  · rw [if_neg hk]
    have hko : k ∉ o := fun hcon => hk (h.2.mem_iff.mpr hcon)
    rw [filter_bne_of_not_mem hko]
    exact h.2.append_right [k]

theorem Inv_evictLRU {α : Type} (maxEntries : Nat) (c : List (String × Entry α))
    (o : List String) (h : Inv { cache := c, accessOrder := o }) :
    Inv { cache := (evictLRU maxEntries c o).1,
          accessOrder := (evictLRU maxEntries c o).2 } := by
  induction o generalizing c with
  | nil =>
    simpa [evictLRU] using h
  | cons hd rest ih =>
    rw [evictLRU]
    by_cases hlen : c.length ≥ maxEntries
    · rw [if_pos hlen]
      apply ih
      have hnd := List.nodup_cons.mp h.1
      refine ⟨hnd.2, ?_⟩
      show List.Perm (mapKeys (mapDelete c hd)) rest
      rw [mapKeys_mapDelete]
      have hfilter : List.Perm ((mapKeys c).filter (fun x => x != hd))
          ((hd :: rest).filter (fun x => x != hd)) := h.2.filter _
      rwa [List.filter_cons, if_neg (by simp), filter_bne_of_not_mem hnd.1]
        at hfilter
    · rw [if_neg hlen]
      exact h

theorem Inv_setCache {α : Type} (now maxEntries ttl : Nat) (s : Store α)
    (key : String) (v : α) (h : Inv s) :
    Inv (setCache now maxEntries ttl s key v) := by
  rw [setCache]
  exact Inv_insert key _ (Inv_evictLRU maxEntries s.cache s.accessOrder h)

theorem Inv_getCache {α : Type} (now : Nat) (s : Store α) (key : String)
    (h : Inv s) : Inv (getCache now s key).2 := by
  rw [getCache]
  cases hget : mapGet s.cache key with
  | none => exact h
  | some entry =>
    by_cases hexp : now > entry.expiresAt
    · simp only [hexp, if_pos, ite_true]
      exact Inv_deleteKey key h
    · simp only [hexp, ite_false]
      exact Inv_touch h (mem_of_mapGet_eq_some hget)

theorem Inv_foldl_deleteKey {α : Type} (L : List String) (s : Store α)
    (h : Inv s) : Inv (L.foldl deleteKey s) := by
  induction L generalizing s with
  | nil => exact h
  | cons a t ih => exact ih _ (Inv_deleteKey a h)

theorem Inv_invalidateCache {α : Type} (s : Store α) (pattern : String)
    (h : Inv s) : Inv (invalidateCache s pattern).2 := by
  rw [invalidateCache]
  by_cases hw : pattern.toList.contains '*'
  · simp only [hw, if_pos, ite_true]
    exact Inv_foldl_deleteKey _ s h
  · simp only [hw, ite_false]
    exact Inv_deleteKey pattern h

theorem Inv_cleanup_fold {α : Type} (now : Nat) (l : List (String × Entry α))
    (acc : Nat × Store α) (h : Inv acc.2) :
    Inv (l.foldl
      (fun acc kv =>
        if now > kv.2.expiresAt then (acc.1 + 1, deleteKey acc.2 kv.1) else acc)
      acc).2 := by
  induction l generalizing acc with
  | nil => exact h
  | cons kv t ih =>
    rw [List.foldl_cons]
    by_cases hexp : now > kv.2.expiresAt
    · rw [if_pos hexp]
      exact ih _ (Inv_deleteKey kv.1 h)
    · rw [if_neg hexp]
      exact ih _ h

theorem Inv_cleanupExpired {α : Type} (now : Nat) (s : Store α) (h : Inv s) :
    Inv (cleanupExpired now s).2 :=
  Inv_cleanup_fold now s.cache (0, s) h

/-! ### The constructed regex versus the spec's glob -/

/-- A character that JavaScript regular expressions take literally: not one of
the metacharacters `^ $ \ . * + ? ( ) [ ] \x7b \x7d |` (listed by code point).
On patterns whose non-`*` characters are all plain, the regex the source builds
is faithfully captured by `lit`/`dotStar` atoms. -/
def plainChar (c : Char) : Bool :=
  !(c.val == 94 || c.val == 36 || c.val == 92 || c.val == 46 || c.val == 42 ||
    c.val == 43 || c.val == 63 || c.val == 40 || c.val == 41 || c.val == 91 ||
    c.val == 93 || c.val == 123 || c.val == 125 || c.val == 124)

theorem splits_append {s : List Char} {pr : List Char × List Char}
    (h : pr ∈ splits s) : pr.1 ++ pr.2 = s := by
  induction s generalizing pr with
  | nil =>
    rw [splits, List.mem_singleton] at h
    subst h; rfl
  | cons c cs ih =>
    rw [splits, List.mem_cons] at h
    rcases h with h | h
    · subst h; rfl
    · rcases List.mem_map.mp h with ⟨pr0, hpr0, hmap⟩
      subst hmap
      simpa using ih hpr0

theorem any_congr {γ : Type} {l : List γ} {f g : γ → Bool}
    (h : ∀ x ∈ l, f x = g x) : l.any f = l.any g := by
  induction l with
  | nil => rfl
  | cons a t ih =>
    rw [List.any_cons, List.any_cons, h a (List.mem_cons_self a t),
        ih (fun x hx => h x (List.mem_cons_of_mem a hx))]

theorem globMatch_star (ps s : List Char) :
    globMatch ('*' :: ps) s = (splits s).any (fun pr => globMatch ps pr.2) := by
  cases s <;> simp [globMatch]

theorem globMatch_lit_nil {p : Char} (hp : ¬ p = '*') (ps : List Char) :
    globMatch (p :: ps) [] = false := by
  simp [globMatch, hp]

theorem globMatch_lit_cons {p : Char} (hp : ¬ p = '*') (ps : List Char)
    (d : Char) (ds : List Char) :
    globMatch (p :: ps) (d :: ds) = (p == d && globMatch ps ds) := by
  simp [globMatch, hp]

theorem rMatch_dotStar (ps : List RItem) (s : List Char) :
    rMatch (RItem.dotStar :: ps) s
      = (splits s).any (fun pr => pr.1.all (fun c => !(isLineTerm c)) && rMatch ps pr.2) := by
  cases s <;> simp [rMatch]

theorem rMatch_lit_nil (c : Char) (ps : List RItem) :
    rMatch (RItem.lit c :: ps) [] = false := by
  simp [rMatch]

theorem rMatch_lit_cons (c : Char) (ps : List RItem) (d : Char) (ds : List Char) :
    rMatch (RItem.lit c :: ps) (d :: ds) = (c == d && rMatch ps ds) := by
  simp [rMatch]

theorem rMatch_eq_globMatch (p s : List Char)
    (hp : ∀ c ∈ p, c = '*' ∨ plainChar c = true)
    (hs : ∀ c ∈ s, isLineTerm c = false) :
    rMatch (toRItems p) s = globMatch p s := by
  induction p generalizing s with
  | nil => rfl
  | cons c ps ih =>
    by_cases hstar : c = '*'
    · subst hstar
      rw [toRItems, if_pos rfl, rMatch_dotStar, globMatch_star]
      apply any_congr
      intro pr hpr
      have happ := splits_append hpr
      have h1 : pr.1.all (fun c => !(isLineTerm c)) = true := by
        rw [List.all_eq_true]
        intro x hx
        rw [hs x (happ ▸ List.mem_append_left pr.2 hx)]
        rfl
      rw [h1, Bool.true_and]
      exact ih pr.2
        (fun a ha => hp a (List.mem_cons_of_mem _ ha))
        (fun a ha => hs a (happ ▸ List.mem_append_right pr.1 ha))
    · have hplain : plainChar c = true := by
        rcases hp c (List.mem_cons_self c ps) with h | h
        · exact absurd h hstar
        · exact h
      have hdot : ¬ c = '.' := by
        intro hcon
        subst hcon
        simp [plainChar] at hplain
      rw [toRItems, if_neg hstar, if_neg hdot]
      cases s with
      | nil => rw [rMatch_lit_nil, globMatch_lit_nil hstar]
      | cons d ds =>
        rw [rMatch_lit_cons, globMatch_lit_cons hstar,
            ih ds (fun a ha => hp a (List.mem_cons_of_mem _ ha))
              (fun a ha => hs a (List.mem_cons_of_mem _ ha))]

theorem mapGet_foldl_deleteKey {α : Type} (L : List String) (s : Store α)
    (k : String) :
    mapGet (L.foldl deleteKey s).cache k
      = if k ∈ L then none else mapGet s.cache k := by
  induction L generalizing s with
  | nil => simp
  | cons a t ih =>
    rw [List.foldl_cons, ih]
    by_cases hmem : k ∈ t
    · simp [hmem]
    · by_cases hka : k = a
      · simp [hmem, hka, deleteKey, mapGet_mapDelete]
      · simp [hmem, hka, deleteKey, mapGet_mapDelete]

theorem mapDelete_of_not_mem {β : Type} {m : List (String × β)} {k : String}
    (h : k ∉ mapKeys m) : mapDelete m k = m :=
  List.filter_eq_self.mpr (fun _kv hkv =>
    bne_iff_ne.mpr (fun hcon => h (hcon ▸ List.mem_map_of_mem Prod.fst hkv)))

/-! ### Concrete stores used to instantiate the theorems -/

/-- The empty provider state. -/
def emptyStore : Store Nat := { cache := [], accessOrder := [] }

/-- A store at capacity 2 holding keys `A` and `B`, `A` least recently used. -/
def storeAB : Store Nat :=
  { cache := [("A", { data := 1, expiresAt := 100, createdAt := 0 }),
              ("B", { data := 2, expiresAt := 100, createdAt := 0 })],
    accessOrder := ["A", "B"] }

/-- The store of the spec's pattern-invalidation example. -/
def storeMeetings : Store Nat :=
  { cache := [("meetings:1", { data := 1, expiresAt := 9, createdAt := 0 }),
              ("meetings:2", { data := 2, expiresAt := 9, createdAt := 0 }),
              ("other:1", { data := 3, expiresAt := 9, createdAt := 0 })],
    accessOrder := ["meetings:1", "meetings:2", "other:1"] }

/-- A one-entry store whose entry expires at time 3. -/
def storeK : Store Nat :=
  { cache := [("k", { data := 5, expiresAt := 3, createdAt := 0 })],
    accessOrder := ["k"] }

/-- A store holding the single key `ab`. -/
def storeAb : Store Nat :=
  { cache := [("ab", { data := 0, expiresAt := 10, createdAt := 0 })],
    accessOrder := ["ab"] }

/-! ### The claims -/

/-- Claim C1 is false of the code: at capacity, `setCache` runs its eviction
loop before looking at whether the key is already present, so overwriting `B`
in a full store `{A, B}` with ledger `[A, B]` evicts `A` — an entry for a
different key is lost even though the call only overwrites `B`. -/
theorem C1_counterexample :
    storeAB.cache.length = 2 ∧
    mapHas storeAB.cache "B" = true ∧
    mapHas storeAB.cache "A" = true ∧
    mapGet (setCache 0 2 50 storeAB "B" 3).cache "A" = none := by
  decide

/-- Claim C1, amended: for a consistent store exactly at capacity whose ledger
starts with `hd`, `setCache` on an already-present key first evicts `hd` — the
least-recently-used key, even when it differs from the key being overwritten —
and then stores the new entry; every key other than the written key and `hd`
keeps its entry. -/
theorem C1_overwrite_at_capacity {α : Type} (now maxEntries ttl : Nat)
    (s : Store α) (key hd : String) (rest : List String) (v : α)
    (hInv : Inv s) (hcap : s.cache.length = maxEntries)
    (horder : s.accessOrder = hd :: rest) (hkey : mapHas s.cache key = true) :
    mapGet (setCache now maxEntries ttl s key v).cache key
        = some { data := v, expiresAt := now + ttl, createdAt := now } ∧
    ∀ k2, k2 ≠ key →
      mapGet (setCache now maxEntries ttl s key v).cache k2
        = if k2 = hd then none else mapGet s.cache k2 := by
  have hkeys_nodup : (mapKeys s.cache).Nodup := hInv.2.symm.nodup hInv.1
  have hmemhd : hd ∈ mapKeys s.cache :=
    hInv.2.mem_iff.mpr (horder ▸ List.mem_cons_self hd rest)
  have hmemkey : key ∈ mapKeys s.cache := (mapHas_iff_mem _ _).mp hkey
  have hpos : 1 ≤ s.cache.length := by
    cases hc : s.cache with
    | nil => rw [hc] at hmemkey; simp [mapKeys] at hmemkey
    | cons a t => simp [hc]
  have hlen : (mapDelete s.cache hd).length + 1 = s.cache.length :=
    length_mapDelete _ _ hkeys_nodup hmemhd
  have hev : evictLRU maxEntries s.cache s.accessOrder
      = (mapDelete s.cache hd, rest) := by
    rw [horder, evictLRU, if_pos (le_of_eq hcap.symm)]
    cases rest with
    | nil => rw [evictLRU]
    | cons r rs => rw [evictLRU, if_neg (by omega)]
  constructor
  · simp only [setCache, hev]
    exact mapGet_mapSet_self _ _ _
  · intro k2 hk2
    simp only [setCache, hev]
    rw [mapGet_mapSet_ne _ _ _ _ hk2, mapGet_mapDelete]

/-- Witness for C1 (amended) at the concrete capacity-2 store `{A, B}`:
overwriting `B` stores the new entry for `B` and evicts `A`. -/
theorem C1_overwrite_at_capacity_witness :
    mapGet (setCache 0 2 50 storeAB "B" 3).cache "B"
        = some { data := 3, expiresAt := 50, createdAt := 0 } ∧
    mapGet (setCache 0 2 50 storeAB "B" 3).cache "A"
        = (if "A" = "A" then none else mapGet storeAB.cache "A") := by
  have h := C1_overwrite_at_capacity 0 2 50 storeAB "B" "A" ["B"] 3
    (by decide) (by decide) rfl (by decide)
  exact ⟨h.1, h.2 "A" (by decide)⟩

/-- Claim C2 is false of the code: `invalidateCache` builds its regex without
escaping the non-`*` characters, so a pattern character with regex meaning is
not matched literally.  With the single key `ab` present, the pattern `a.*`
matches nothing under the spec's glob reading (the `.` would have to match
itself), yet the code's regex `^a..*$` accepts `ab`, so the key is removed and
the call returns 1. -/
theorem C2_counterexample :
    globMatch "a.*".toList "ab".toList = false ∧
    (invalidateCache storeAb "a.*").1 = 1 ∧
    mapGet (invalidateCache storeAb "a.*").2.cache "ab" = none := by
  decide

/-- Claim C2, amended: for a wildcard pattern whose non-`*` characters are all
plain (no regex metacharacters, in particular no `.`), and a store whose keys
contain no line-terminator characters, `invalidateCache` removes exactly the
keys the glob matches, leaves every other key's entry unchanged, and returns
the number of matching keys. -/
theorem C2_wildcard_invalidate {α : Type} (s : Store α) (pattern : String)
    (hw : pattern.toList.contains '*' = true)
    (hplain : ∀ c ∈ pattern.toList, c = '*' ∨ plainChar c = true)
    (hkeys : ∀ k ∈ mapKeys s.cache, ∀ c ∈ k.toList, isLineTerm c = false) :
    (invalidateCache s pattern).1
        = ((mapKeys s.cache).filter
            (fun k => globMatch pattern.toList k.toList)).length ∧
    ∀ k, mapGet (invalidateCache s pattern).2.cache k
        = if globMatch pattern.toList k.toList = true then none
          else mapGet s.cache k := by
  have hfil : (mapKeys s.cache).filter (fun k => regexTest pattern k)
      = (mapKeys s.cache).filter (fun k => globMatch pattern.toList k.toList) :=
    List.filter_congr
      (fun k hk => rMatch_eq_globMatch _ _ hplain (hkeys k hk))
  constructor
  · simp only [invalidateCache, hw, if_pos, ite_true, hfil]
  · intro k
    simp only [invalidateCache, hw, if_pos, ite_true]
    rw [mapGet_foldl_deleteKey]
    by_cases hg : globMatch pattern.toList k.toList = true
    · rw [if_pos hg]
      by_cases hmem : k ∈ mapKeys s.cache
      · rw [if_pos]
        rw [hfil, List.mem_filter]
        exact ⟨hmem, hg⟩
      · rw [if_neg, (mapGet_eq_none_iff _ _).mpr hmem]
        intro hcon
        exact hmem (List.mem_of_mem_filter hcon)
    · rw [if_neg hg, if_neg]
      intro hcon
      rw [hfil, List.mem_filter] at hcon
      exact hg hcon.2

/-- Witness for C2 (amended) on the spec's own example: with `meetings:1`,
`meetings:2` and `other:1` present, `invalidate("meetings:*")` returns 2,
removes `meetings:1`, and leaves `other:1` in place. -/
theorem C2_wildcard_invalidate_witness :
    (invalidateCache storeMeetings "meetings:*").1 = 2 ∧
    mapGet (invalidateCache storeMeetings "meetings:*").2.cache "meetings:1"
        = none ∧
    mapGet (invalidateCache storeMeetings "meetings:*").2.cache "other:1"
        = mapGet storeMeetings.cache "other:1" := by
  have h := C2_wildcard_invalidate storeMeetings "meetings:*"
    (by decide) (by decide) (by decide)
  refine ⟨?_, ?_, ?_⟩
  · rw [h.1]; decide
  · rw [h.2 "meetings:1"]; decide
  · rw [h.2 "other:1"]; decide

/-- Claim C3: every store operation — `getCache`, `hasCache`, `isStale`,
`setCache`, `invalidateCache`, `clearCache`, `cleanupExpired`,
`getCacheStats` — preserves the consistency invariant: the ledger lists each
key exactly once and carries exactly the keys of the entry map. -/
theorem C3_operations_preserve_invariant {α : Type} (now maxEntries ttl : Nat)
    (sz : α → Nat) (s : Store α) (key pattern : String) (v : α) (h : Inv s) :
    Inv (getCache now s key).2 ∧
    Inv (hasCache now s key).2 ∧
    Inv (isStale now s key).2 ∧
    Inv (setCache now maxEntries ttl s key v) ∧
    Inv (invalidateCache s pattern).2 ∧
    Inv (clearCache s).2 ∧
    Inv (cleanupExpired now s).2 ∧
    Inv (getCacheStats now maxEntries sz s).2 :=
  ⟨Inv_getCache now s key h, h, h,
   Inv_setCache now maxEntries ttl s key v h,
   Inv_invalidateCache s pattern h,
   ⟨List.nodup_nil, List.Perm.nil⟩,
   Inv_cleanupExpired now s h, h⟩

/-- Witness for C3 at the concrete store `{A, B}` (which satisfies the
invariant) with representative arguments for every operation. -/
theorem C3_operations_preserve_invariant_witness :
    Inv (getCache 0 storeAB "A").2 ∧
    Inv (hasCache 0 storeAB "A").2 ∧
    Inv (isStale 0 storeAB "A").2 ∧
    Inv (setCache 0 2 50 storeAB "A" 7) ∧
    Inv (invalidateCache storeAB "A*").2 ∧
    Inv (clearCache storeAB).2 ∧
    Inv (cleanupExpired 0 storeAB).2 ∧
    Inv (getCacheStats 0 2 (fun _ => 1) storeAB).2 :=
  C3_operations_preserve_invariant 0 2 50 (fun _ => 1) storeAB "A" "A*" 7
    (by decide)

/-- Claim C4: `getCache` on an absent key returns `none` and leaves the store
untouched; on a stale key it removes the entry from map and ledger, returns
`none`, and `isStale` is false immediately afterwards; on a fresh key it
returns the stored value, leaves the map unchanged, and moves the key to the
ledger tail. -/
theorem C4_get_semantics {α : Type} (now : Nat) (s : Store α) (key : String) :
    (mapGet s.cache key = none → getCache now s key = (none, s)) ∧
    (∀ e, mapGet s.cache key = some e → now > e.expiresAt →
      (getCache now s key).1 = none ∧
      mapGet (getCache now s key).2.cache key = none ∧
      key ∉ (getCache now s key).2.accessOrder ∧
      (isStale now (getCache now s key).2 key).1 = false) ∧
    (∀ e, mapGet s.cache key = some e → now ≤ e.expiresAt →
      (getCache now s key).1 = some e.data ∧
      (getCache now s key).2.cache = s.cache ∧
      (getCache now s key).2.accessOrder
          = s.accessOrder.filter (fun x => x != key) ++ [key]) := by
  refine ⟨?_, ?_, ?_⟩
  · intro h
    simp [getCache, h]
  · intro e he hexp
    refine ⟨?_, ?_, ?_, ?_⟩ <;>
      simp [getCache, he, hexp, deleteKey, mapGet_mapDelete, isStale,
            mem_filter_bne]
  · intro e he hfr
    have hexp : ¬ now > e.expiresAt := not_lt.mpr hfr
    refine ⟨?_, ?_, ?_⟩ <;> simp [getCache, he, hexp]

/-- Witness for C4: the absent branch on the empty store, and the stale
(time 10) and fresh (time 2) branches on the one-entry store whose entry
expires at 3. -/
theorem C4_get_semantics_witness :
    getCache 0 emptyStore "x" = (none, emptyStore) ∧
    mapGet (getCache 10 storeK "k").2.cache "k" = none ∧
    (getCache 2 storeK "k").1 = some 5 := by
  refine ⟨(C4_get_semantics 0 emptyStore "x").1 (by decide), ?_, ?_⟩
  · exact ((C4_get_semantics 10 storeK "k").2.1
      { data := 5, expiresAt := 3, createdAt := 0 } (by decide) (by decide)).2.1
  · exact ((C4_get_semantics 2 storeK "k").2.2
      { data := 5, expiresAt := 3, createdAt := 0 } (by decide) (by decide)).1

/-- Claim C5: capacity eviction removes the head of the access-order ledger.
With `maxEntries = 2`, inserting `A, B, C` leaves exactly `{B, C}`; inserting
`A, B`, reading `A`, then inserting `C` leaves exactly `{A, C}` — the read
promoted `A`, so `B` is the one evicted. -/
theorem C5_lru_eviction_order :
    mapKeys (setCache 0 2 100
      (setCache 0 2 100 (setCache 0 2 100 emptyStore "A" 1) "B" 2)
      "C" 3).cache = ["B", "C"] ∧
    mapKeys (setCache 0 2 100
      (getCache 0
        (setCache 0 2 100 (setCache 0 2 100 emptyStore "A" 1) "B" 2) "A").2
      "C" 3).cache = ["A", "C"] := by
  decide

/-- Claim C6: `hasCache` returns true exactly when an entry exists and is
fresh (`now ≤ expiresAt`), and it leaves the whole store state unchanged — no
ledger reordering, no removal, not even of a stale entry. -/
theorem C6_has_semantics {α : Type} (now : Nat) (s : Store α) (key : String) :
    ((hasCache now s key).1 = true ↔
      ∃ e, mapGet s.cache key = some e ∧ now ≤ e.expiresAt) ∧
    (hasCache now s key).2 = s := by
  constructor
  · cases hget : mapGet s.cache key <;> simp [hasCache, hget]
  · rfl

/-- Claim C7: a wildcard-free pattern is an exact key — when present, the call
removes exactly that entry and returns 1; when absent, it returns 0 and the
store is left completely unchanged. -/
theorem C7_exact_invalidate {α : Type} (s : Store α) (pattern : String)
    (hnw : pattern.toList.contains '*' = false) (hInv : Inv s) :
    (mapHas s.cache pattern = true →
      (invalidateCache s pattern).1 = 1 ∧
      mapGet (invalidateCache s pattern).2.cache pattern = none ∧
      ∀ k2, k2 ≠ pattern →
        mapGet (invalidateCache s pattern).2.cache k2 = mapGet s.cache k2) ∧
    (mapHas s.cache pattern = false →
      (invalidateCache s pattern).1 = 0 ∧ (invalidateCache s pattern).2 = s) := by
  have hnw2 : ¬ '*' ∈ pattern.data := by simpa using hnw
  constructor
  · intro hp
    refine ⟨?_, ?_, ?_⟩
    · simp [invalidateCache, hnw2, hp]
    · simp [invalidateCache, hnw2, deleteKey, mapGet_mapDelete]
    · intro k2 hk2
      simp [invalidateCache, hnw2, deleteKey, mapGet_mapDelete, hk2]
  · intro hab
    have hnot : pattern ∉ mapKeys s.cache :=
      fun hcon => by rw [(mapHas_iff_mem _ _).mpr hcon] at hab; cases hab
    have hnoto : pattern ∉ s.accessOrder :=
      fun hcon => hnot (hInv.2.mem_iff.mpr hcon)
    constructor
    · simp [invalidateCache, hnw2, hab]
    · have hcond : ¬ (pattern.toList.contains '*' = true) := by
        simpa using hnw2
      simp only [invalidateCache]
      rw [if_neg hcond]
      show deleteKey s pattern = s
      rw [deleteKey, mapDelete_of_not_mem hnot, filter_bne_of_not_mem hnoto]

/-- Witness for C7: exact invalidation of the present key `meetings:1`
(removes it, returns 1, leaves `other:1` alone) and of the absent key `nope`
(returns 0, store unchanged). -/
theorem C7_exact_invalidate_witness :
    (invalidateCache storeMeetings "meetings:1").1 = 1 ∧
    mapGet (invalidateCache storeMeetings "meetings:1").2.cache "meetings:1"
        = none ∧
    mapGet (invalidateCache storeMeetings "meetings:1").2.cache "other:1"
        = mapGet storeMeetings.cache "other:1" ∧
    (invalidateCache storeMeetings "nope").1 = 0 ∧
    (invalidateCache storeMeetings "nope").2 = storeMeetings := by
  have h1 := (C7_exact_invalidate storeMeetings "meetings:1"
    (by decide) (by decide)).1 (by decide)
  have h2 := (C7_exact_invalidate storeMeetings "nope"
    (by decide) (by decide)).2 (by decide)
  exact ⟨h1.1, h1.2.1, h1.2.2 "other:1" (by decide), h2.1, h2.2⟩

/-- The failure path of one producer invocation: `setIsLoading(true)` and
`setError(null)` happen, the producer fails, the `catch` stores the error,
the `finally` clears the loading flag, and neither `data` nor the store is
touched. -/
theorem runProducer_failure {α ε : Type} (now maxEntries ttl : Nat)
    (producer : String → Except ε α) (transform : α → α) (u : String)
    (st : FetchState α ε) (s : Store α) (e : ε)
    (hprod : producer u = Except.error e) :
    runProducer now maxEntries ttl producer transform u st s
      = ({ st with isLoading := false, error := some e }, s) := by
  simp [runProducer, hprod]

/-- Claim C8: whenever a fetch cycle reaches the producer (a forced refresh or
a cache miss) and the producer fails, the cycle ends with the failure captured
in `error`, the previous `data` untouched, and `isLoading = false`; the
failure never escapes the cycle (the cycle is a total function into states). -/
theorem C8_producer_failure {α ε : Type} (now maxEntries ttl : Nat)
    (u : String) (refetchOnStale skipCache : Bool)
    (producer : String → Except ε α) (transform : α → α)
    (st : FetchState α ε) (s : Store α) (e : ε)
    (hprod : producer u = Except.error e)
    (hmiss : skipCache = true ∨ (getCache now s u).1 = none) :
    (fetchData now maxEntries ttl true (some u) refetchOnStale producer
        transform skipCache st s).1.error = some e ∧
    (fetchData now maxEntries ttl true (some u) refetchOnStale producer
        transform skipCache st s).1.data = st.data ∧
    (fetchData now maxEntries ttl true (some u) refetchOnStale producer
        transform skipCache st s).1.isLoading = false := by
  cases skipCache with
  | true =>
    simp [fetchData, runProducer_failure now maxEntries ttl producer
      transform u st s e hprod]
  | false =>
    have hnone : (getCache now s u).1 = none := by
      rcases hmiss with h | h
      · cases h
      · exact h
    rcases hget : getCache now s u with ⟨c, s1⟩
    rw [hget] at hnone
    subst hnone
    simp [fetchData, hget, runProducer_failure now maxEntries ttl producer
      transform u st s1 e hprod]

/-- Witness for C8: a producer that always fails with `"network error"`,
invoked as a forced refresh on the empty store with prior data `9`, ends with
that error, data still `9`, and loading off. -/
theorem C8_producer_failure_witness :
    (fetchData 0 2 50 true (some "u") false
        (fun _ => (Except.error "network error" : Except String Nat)) id true
        { data := some 9, isLoading := true, error := none, isStale := false }
        emptyStore).1.error = some "network error" ∧
    (fetchData 0 2 50 true (some "u") false
        (fun _ => (Except.error "network error" : Except String Nat)) id true
        { data := some 9, isLoading := true, error := none, isStale := false }
        emptyStore).1.data = some 9 ∧
    (fetchData 0 2 50 true (some "u") false
        (fun _ => (Except.error "network error" : Except String Nat)) id true
        { data := some 9, isLoading := true, error := none, isStale := false }
        emptyStore).1.isLoading = false :=
  C8_producer_failure 0 2 50 "u" false true
    (fun _ => Except.error "network error") id
    { data := some 9, isLoading := true, error := none, isStale := false }
    emptyStore "network error" rfl (Or.inl rfl)

/-- Claim C9: exact-key invalidation never consults freshness — a present but
stale entry is removed and counted exactly like a fresh one. -/
theorem C9_stale_exact_invalidate {α : Type} (now : Nat) (s : Store α)
    (key : String) (e : Entry α)
    (hget : mapGet s.cache key = some e) (hstale : now > e.expiresAt)
    (hnw : key.toList.contains '*' = false) :
    (isStale now s key).1 = true ∧
    (invalidateCache s key).1 = 1 ∧
    mapGet (invalidateCache s key).2.cache key = none := by
  have hhas : mapHas s.cache key = true := by simp [mapHas, hget]
  have hnw2 : ¬ '*' ∈ key.data := by simpa using hnw
  refine ⟨?_, ?_, ?_⟩
  · simp [isStale, hget, hstale]
  · simp [invalidateCache, hnw2, hhas]
  · simp [invalidateCache, hnw2, deleteKey, mapGet_mapDelete]

/-- Witness for C9: at time 10 the single entry of the store (expiry 3) is
stale, and exact invalidation still removes it and returns 1. -/
theorem C9_stale_exact_invalidate_witness :
    (isStale 10 storeK "k").1 = true ∧
    (invalidateCache storeK "k").1 = 1 ∧
    mapGet (invalidateCache storeK "k").2.cache "k" = none :=
  C9_stale_exact_invalidate 10 storeK "k"
    { data := 5, expiresAt := 3, createdAt := 0 }
    (by decide) (by decide) (by decide)

/-- Claim C10: an entry written with `ttl = 0` gets `expiresAt = now`, so at
that same instant `hasCache` is true and `getCache` returns the value; the
entry is stale exactly for clocks strictly past that instant. -/
theorem C10_zero_ttl_fresh {α : Type} (now maxEntries now2 : Nat) (s : Store α)
    (key : String) (v : α) :
    (hasCache now (setCache now maxEntries 0 s key v) key).1 = true ∧
    (getCache now (setCache now maxEntries 0 s key v) key).1 = some v ∧
    ((isStale now2 (setCache now maxEntries 0 s key v) key).1 = true ↔
      now < now2) := by
  have hget : mapGet (setCache now maxEntries 0 s key v).cache key
      = some { data := v, expiresAt := now + 0, createdAt := now } := by
    simp only [setCache]
    exact mapGet_mapSet_self _ _ _
  refine ⟨?_, ?_, ?_⟩
  · simp [hasCache, hget]
  · simp [getCache, hget]
  · simp [isStale, hget]

end DataCache
